import Mathlib

/-!
# Verification of the dummy-data synthesizer (`src/main.py`)

Shallow embedding of `generate_dummy_data` and its helpers
(`extract_metadata`, `generate_value`, `generate_dummy_instance`) from
`src/main.py`, together with a model of the JSON serialization step
(`json.dumps(_, indent=4)` / `json.loads`).

Conventions of the embedding:

* Randomness: every call to an external random collaborator
  (`random.choice`, `fake.boolean`, `fake.random_int`, `fake.pyfloat`,
  `fake.pystr`, `fake.word`, `fake.sentence`, `fake.text`) consumes one
  draw from an oracle stream `g : Nat → Nat` at a running index `k`;
  functions return the value together with the next unused index.
  Quantifying over `g` quantifies over every outcome of the randomness
  source.
* Python ints are `Int`.  Python floats produced by this program are
  decimal values (faker's `pyfloat` builds a decimal, and the program
  rounds to two digits), modelled as `Int` hundredths.
* The faker text collaborators are modelled as fixed-lexicon generators
  producing printable-ASCII text, which is what faker's English lorem
  providers produce; the spec treats the concrete text source as a
  substitutable collaborator.
-/

set_option maxHeartbeats 1600000

/-- A generated value: the tree of Python-native values produced by
`generate_value` (`main.py` lines 34-108).  Python tuples and lists are
kept distinct (`tup` vs `arr`); dicts are insertion-ordered association
lists. -/
inductive Value where
  | null
  | bool  (b : Bool)
  | int   (i : Int)
  /-- A Python float; `float m` denotes the decimal number `m / 100`. -/
  | float (m : Int)
  | str   (s : String)
  | arr   (vs : List Value)
  | tup   (vs : List Value)
  | obj   (kvs : List (String × Value))

/-- A value stored in the extracted-constraint dict: Python `None`, an
int, a float (hundredths), a bool or a string. -/
inductive CVal where
  | vnone
  | vint   (i : Int)
  | vfloat (h : Int)
  | vbool  (b : Bool)
  | vstr   (s : String)
  deriving DecidableEq

/-- The constraint dict built by `extract_metadata`: an insertion-ordered
association list with unique keys (a Python `dict`). -/
abbrev Metadata := List (String × CVal)

/-- Python `dict` key lookup: the binding of `key`, if any. -/
def mlookup : Metadata → String → Option CVal
  | [], _ => none
  | (k, v) :: rest, key => if k = key then some v else mlookup rest key

/-- `metadata.get(key, dflt)` read as a Python int.  `extract_metadata`
only ever stores ints under the numeric keys the program reads this way,
so the non-`vint` fallback is unreachable from extracted metadata. -/
def getI (m : Metadata) (key : String) (dflt : Int) : Int :=
  match mlookup m key with
  | some (CVal.vint i) => i
  | _ => dflt

/-- `metadata.get(key, dflt)` read as a float in hundredths; a Python int
bound is a valid float bound, hence the `vint` case. -/
def getF (m : Metadata) (key : String) (dflt : Int) : Int :=
  match mlookup m key with
  | some (CVal.vfloat h) => h
  | some (CVal.vint i) => 100 * i
  | _ => dflt

/-- Python dict assignment `d[k] = v`: update the first binding of `k` in
place (keeping its position), else append. -/
def upsert {α : Type} : List (String × α) → String → α → List (String × α)
  | [], k, v => [(k, v)]
  | (k0, v0) :: rest, k, v =>
    if k0 = k then (k0, v) :: rest else (k0, v0) :: upsert rest k v

/-- One raw metadata item attached to a field (an entry of
`FieldInfo.metadata`).  `stringConstraints` mirrors
`pydantic.StringConstraints`, a dataclass whose `__dict__` holds exactly
these seven attributes (`None` when unset); `interval` mirrors
`annotated_types.Interval` with attributes `gt ge lt le` (`None` when
unset; int or float bounds, so `Option CVal`); `unknownAnno` stands for
any other metadata kind, which `extract_metadata` ignores. -/
inductive Anno where
  | stringConstraints (strip_whitespace to_upper to_lower strict : Option Bool)
      (min_length max_length : Option Int) (pat : Option String)
  | interval (gt ge lt le : Option CVal)
  | unknownAnno

def obv : Option Bool → CVal
  | none => CVal.vnone
  | some b => CVal.vbool b

def oiv : Option Int → CVal
  | none => CVal.vnone
  | some i => CVal.vint i

def osv : Option String → CVal
  | none => CVal.vnone
  | some s => CVal.vstr s

def ocv : Option CVal → CVal
  | none => CVal.vnone
  | some c => c

def isVnone : CVal → Bool
  | CVal.vnone => true
  | _ => false

/-- The key/value pairs contributed by one metadata item, in attribute
order: `item.__dict__` for `StringConstraints` (main.py line 25), and the
`gt ge lt le` reads for `Interval` (lines 27-29; `hasattr` is always true
for those four dataclass fields, their value being `None` when unset). -/
def annoPairs : Anno → List (String × CVal)
  | Anno.stringConstraints sw tu tl st minL maxL pat =>
      [("strip_whitespace", obv sw), ("to_upper", obv tu), ("to_lower", obv tl),
       ("strict", obv st), ("min_length", oiv minL), ("max_length", oiv maxL),
       ("pattern", osv pat)]
  | Anno.interval gt ge lt le =>
      [("gt", ocv gt), ("ge", ocv ge), ("lt", ocv lt), ("le", ocv le)]
  | Anno.unknownAnno => []

/-- `extract_metadata` (`main.py` lines 20-32): fold every recognized
item's attributes into the dict, then drop the `None`-valued keys. -/
def extract_metadata (items : List Anno) : Metadata :=
  (items.foldl (fun acc item => (annoPairs item).foldl (fun a kv => upsert a kv.1 kv.2) acc) []).filter
    (fun kv => !(isVnone kv.2))

/-- Modelled collaborator: the lexicon behind `fake.word()`. -/
def wordList : List String :=
  ["alpha", "bravo", "delta", "echo", "gamma", "omega", "sigma", "zulu"]

/-- Modelled collaborator: `fake.word()` draws one word from the lexicon. -/
def fakeWord (n : Nat) : String :=
  wordList.get ⟨n % 8, Nat.mod_lt _ (by decide)⟩

def letters : List Char :=
  ['a', 'b', 'c', 'd', 'e', 'f', 'g', 'h', 'i', 'j', 'k', 'l', 'm',
   'n', 'o', 'p', 'q', 'r', 's', 't', 'u', 'v', 'w', 'x', 'y', 'z']

def letterChar (n : Nat) : Char :=
  letters.get ⟨n % 26, Nat.mod_lt _ (by decide)⟩

/-- Modelled collaborator: `fake.pystr(min_chars, max_chars)` — a string
of `randint(min_chars, max_chars)` random letters. -/
def fakePystr (minChars maxChars : Nat) (n : Nat) : String :=
  String.mk ((List.range (minChars + n % (maxChars - minChars + 1))).map
    (fun i => letterChar (n + i)))

/-- Modelled collaborator: `fake.boolean()` — one random boolean draw. -/
def fakeBoolean (n : Nat) : Bool := n % 2 == 1

/-- `fake.random_int(min, max)` (= `random.randint`): a value in
`[lo, hi]` when `lo ≤ hi`.  Python raises for `lo > hi`; the program
reaches that case only for contradictory constraints, whose behavior the
spec leaves unspecified (spec section 9), so this model is meaningful
only under `lo ≤ hi`. -/
def randomInt (lo hi : Int) (n : Nat) : Int :=
  lo + (n : Int) % (hi - lo + 1)

/-- Modelled collaborator: `fake.pyfloat(min_value, max_value)` in
hundredths; `round(_, 2)` at line 85 is the identity here. -/
def pyfloatIn (lo hi : Int) (n : Nat) : Int := lo + (n : Int) % (hi - lo + 1)

/-- Modelled collaborator: unconstrained `fake.pyfloat()` in hundredths. -/
def fakePyfloat (n : Nat) : Int := ((n : Int) % 200001) - 100000

/-- Modelled collaborator: `fake.sentence(nb_words=4)` — readable words
ending in a period. -/
def fakeSentence (n : Nat) : String := fakeWord n ++ " ipsum dolor sit."

/-- Python string slicing `s[:n]`. -/
def strTake (s : String) (n : Nat) : String := String.mk (s.data.take n)

/-- Modelled collaborator: `fake.text(max_nb_chars)` — lorem text of at
most `maxChars` characters. -/
def fakeText (maxChars : Nat) (n : Nat) : String :=
  strTake (fakeWord n ++ " lorem ipsum dolor sit amet consectetur adipiscing elit.") maxChars

/-- `random.choice(xs)`: a uniform element of a non-empty list.  `dflt`
stands in for the `IndexError` Python raises on an empty list, which the
program reaches only for an enumeration with no members — excluded by the
data model (spec section 3: enumerations are non-empty). -/
def choiceD {α : Type} (dflt : α) (xs : List α) (n : Nat) : α :=
  xs.getD (n % xs.length) dflt

mutual
/-- A resolvable Python type annotation, as `generate_value` classifies
it (`main.py` lines 37-108): the constructors are the disjoint outcomes
of the source's `get_origin` / `issubclass` dispatch. -/
inductive FieldType where
  /-- `Union[...]` / `X | Y`: `get_origin` is `Union`, `get_args` the
  ordered argument list (with `noneT` for `NoneType` in `Optional`). -/
  | union   (args : List FieldType)
  /-- A Pydantic model class used as an annotation. -/
  | modelTy (pm : PyModel)
  /-- An `Enum` subclass; `vals` are the members' stored `.value`s in
  declaration order. -/
  | enumTy  (vals : List Value)
  /-- `List[elem]` / `list[elem]`: `get_origin` is `list`. -/
  | listTy  (elem : FieldType)
  /-- `List` with no type argument: the element type defaults to `Any`. -/
  | listNoArg
  /-- `Dict[keyTy, valTy]`: `get_origin` is `dict`. -/
  | dictTy  (keyTy valTy : FieldType)
  /-- `Dict` with no type arguments: defaults to `(str, Any)`. -/
  | dictNoArg
  /-- `Tuple[...]`: `get_origin` is `tuple`, one shape per position. -/
  | tupleTy (args : List FieldType)
  | boolT
  | intT
  | floatT
  | strT
  /-- the bare builtin `list` (no `get_origin`): reaches the fallback at
  line 102. -/
  | listBare
  | anyT
  /-- `NoneType`, as it occurs inside `Optional` / `Union` arguments. -/
  | noneT
  /-- any annotation matched by no dispatch rule (spec 4.2 case 14). -/
  | other

/-- A Pydantic model class: either a `RootModel` wrapping one annotation,
or a plain `BaseModel` with its `model_fields` (a dict, hence unique
names, in declaration order). -/
inductive PyModel where
  | rootM  (root : FieldType)
  | record (fields : List FieldDecl)

/-- One entry of `model_fields`: name, annotation, raw metadata items. -/
inductive FieldDecl where
  | mk (fname : String) (ftype : FieldType) (fannos : List Anno)
end

def FieldDecl.fname : FieldDecl → String
  | FieldDecl.mk n _ _ => n

def FieldDecl.ftype : FieldDecl → FieldType
  | FieldDecl.mk _ t _ => t

def FieldDecl.fannos : FieldDecl → List Anno
  | FieldDecl.mk _ _ a => a

def isNoneT : FieldType → Bool
  | FieldType.noneT => true
  | _ => false

/-- Python `issubclass(t, int)` on the embedded shapes: `bool` is a
subclass of `int` in Python, which is why the source checks `bool` first
(line 73 before line 78) — the dispatch order is load-bearing. -/
def pySubclassOfInt : FieldType → Bool
  | FieldType.intT => true
  | FieldType.boolT => true
  | _ => false

/-- Lower bound of the int rule (line 79):
`metadata.get("ge", metadata.get("gt", 1) + 1)`. -/
def intLo (m : Metadata) : Int := getI m "ge" (getI m "gt" 1 + 1)

/-- Upper bound of the int rule (line 80):
`metadata.get("le", metadata.get("lt", 1000) - 1)`. -/
def intHi (m : Metadata) : Int := getI m "le" (getI m "lt" 1000 - 1)

/-- Lower bound of the float rule (line 83), in hundredths:
`metadata.get("ge", metadata.get("gt", 1.0) + 0.1)`. -/
def floatLo (m : Metadata) : Int := getF m "ge" (getF m "gt" 100 + 10)

/-- Upper bound of the float rule (line 84), in hundredths:
`metadata.get("le", metadata.get("lt", 1000.0) - 0.1)`. -/
def floatHi (m : Metadata) : Int := getF m "le" (getF m "lt" 100000 - 10)

/-- Lines 105-106, the `Any` branch: Python builds the whole candidate
list — four draws — and then `choice` picks one entry. -/
def genAny (g : Nat → Nat) (k : Nat) : Value × Nat :=
  let w := fakeWord (g k)
  let i := randomInt 1 1000 (g (k + 1))
  let f := fakePyfloat (g (k + 2))
  let s := fakeSentence (g (k + 3))
  (choiceD Value.null [Value.str w, Value.int i, Value.float f, Value.str s] (g (k + 4)), k + 5)

mutual
/-- `generate_value` (`main.py` lines 34-108), by the source's dispatch
order.  Takes the annotation, the extracted constraint dict, the oracle
stream and the next draw index; returns the value and the next unused
index. -/
def genValue : FieldType → Metadata → (Nat → Nat) → Nat → Value × Nat
  | FieldType.union args, m, g, k =>
      -- line 41: `origin is Union and type(None) in args`
      if args.any isNoneT then
        -- lines 42-43: the list `[None, generate_value(non_none_type)]` is
        -- built first (one full synthesis of the wrapped shape), then
        -- `choice` draws between its two entries.
        let r := genUnionWrapped args m g k
        (choiceD Value.null [Value.null, r.1] (g r.2), r.2 + 1)
      else
        -- A `Union` without `None` is not a `type` and has no handled
        -- origin: the source falls through every rule to `return None`
        -- (line 108).
        (Value.null, k)
  | FieldType.modelTy (PyModel.rootM rt), m, g, k =>
      -- lines 46-48: a RootModel annotation: recurse into its `root`
      -- annotation with the same metadata.
      genValue rt m g k
  | FieldType.modelTy (PyModel.record fields), _, g, k =>
      -- lines 51-52: a nested BaseModel: `generate_dummy_instance`.
      let r := genFields fields g k
      (Value.obj r.1, r.2)
  | FieldType.enumTy vals, _, g, k =>
      -- line 56: `choice(list(field_type)).value`
      (choiceD Value.null vals (g k), k + 1)
  | FieldType.listTy elem, m, g, k =>
      -- lines 59-61: exactly three elements, same metadata, left to right.
      let r1 := genValue elem m g k
      let r2 := genValue elem m g r1.2
      let r3 := genValue elem m g r2.2
      (Value.arr [r1.1, r2.1, r3.1], r3.2)
  | FieldType.listNoArg, _, g, k =>
      -- lines 59-61 with `sub_type = Any`.
      let r1 := genAny g k
      let r2 := genAny g r1.2
      let r3 := genAny g r2.2
      (Value.arr [r1.1, r2.1, r3.1], r3.2)
  | FieldType.dictTy _ valTy, m, g, k =>
      -- lines 64-66: two comprehension iterations; in each, the key draw
      -- precedes the value synthesis; a repeated key is overwritten in
      -- place (Python dict semantics).  The declared key type is never
      -- used: keys always come from `fake.word()`.
      let w1 := fakeWord (g k)
      let r1 := genValue valTy m g (k + 1)
      let w2 := fakeWord (g r1.2)
      let r2 := genValue valTy m g (r1.2 + 1)
      (Value.obj (upsert (upsert [] w1 r1.1) w2 r2.1), r2.2)
  | FieldType.dictNoArg, _, g, k =>
      -- lines 64-66 with `(key_type, value_type) = (str, Any)`.
      let w1 := fakeWord (g k)
      let r1 := genAny g (k + 1)
      let w2 := fakeWord (g r1.2)
      let r2 := genAny g (r1.2 + 1)
      (Value.obj (upsert (upsert [] w1 r1.1) w2 r2.1), r2.2)
  | FieldType.tupleTy args, m, g, k =>
      -- lines 69-70
      let r := genTupleVals args m g k
      (Value.tup r.1, r.2)
  | FieldType.boolT, _, g, k =>
      -- lines 73-74: checked before the int rule because
      -- `issubclass(bool, int)` holds in Python.
      (Value.bool (fakeBoolean (g k)), k + 1)
  | FieldType.intT, m, g, k =>
      -- lines 78-81
      (Value.int (randomInt (intLo m) (intHi m) (g k)), k + 1)
  | FieldType.floatT, m, g, k =>
      -- lines 82-85
      (Value.float (pyfloatIn (floatLo m) (floatHi m) (g k)), k + 1)
  | FieldType.strT, m, g, k =>
      -- lines 86-93
      let minL := getI m "min_length" 5
      let maxL := getI m "max_length" 15
      if minL = maxL then
        -- line 91: `fake.pystr(min_chars=min_length, max_chars=min_length)`
        (Value.str (fakePystr minL.toNat minL.toNat (g k)), k + 1)
      else
        -- line 93: `fake.text(max_nb_chars=max_length)[:max(min_length, max_length)]`
        (Value.str (strTake (fakeText maxL.toNat (g k)) (max minL maxL).toNat), k + 1)
  | FieldType.listBare, _, g, k =>
      -- lines 102-103: `[fake.word() for _ in range(3)]`
      (Value.arr [Value.str (fakeWord (g k)), Value.str (fakeWord (g (k + 1))),
                  Value.str (fakeWord (g (k + 2)))], k + 3)
  | FieldType.anyT, _, g, k => genAny g k
  | FieldType.noneT, _, _, k =>
      -- `NoneType` is a `type` but matches no rule: falls to line 108.
      (Value.null, k)
  | FieldType.other, _, _, k =>
      -- spec 4.2 case 14: no rule matched, `return None` (line 108).
      (Value.null, k)
termination_by t _ _ _ => sizeOf t

/-- The present value of an `Optional`: `generate_value` of the first
non-`None` union argument (line 42, `next(t for t in args if t is not
type(None))`).  An all-`None` argument list cannot arise from Python's
`typing` (`Union[None]` collapses to `NoneType` before dispatch). -/
def genUnionWrapped : List FieldType → Metadata → (Nat → Nat) → Nat → Value × Nat
  | [], _, _, k => (Value.null, k)
  | t :: rest, m, g, k =>
      if isNoneT t then genUnionWrapped rest m g k else genValue t m g k
termination_by ts _ _ _ => sizeOf ts

/-- Line 70: one value per tuple position, left to right, same metadata. -/
def genTupleVals : List FieldType → Metadata → (Nat → Nat) → Nat → List Value × Nat
  | [], _, _, k => ([], k)
  | t :: rest, m, g, k =>
      let r := genValue t m g k
      let rs := genTupleVals rest m g r.2
      (r.1 :: rs.1, rs.2)
termination_by ts _ _ _ => sizeOf ts

/-- `generate_dummy_instance` for a plain model (lines 118-121): one
value per declared field, in `model_fields` order, with that field's
freshly extracted constraints. -/
def genFields : List FieldDecl → (Nat → Nat) → Nat → List (String × Value) × Nat
  | [], _, k => ([], k)
  | FieldDecl.mk name ty annos :: rest, g, k =>
      let r := genValue ty (extract_metadata annos) g k
      let rs := genFields rest g r.2
      ((name, r.1) :: rs.1, rs.2)
termination_by fs _ _ => sizeOf fs
end

/-- `generate_dummy_instance` (`main.py` lines 110-121): a `RootModel`
generates its single wrapped value with empty metadata (line 116); a
plain model generates its field dict. -/
def genInstance : PyModel → (Nat → Nat) → Nat → Value × Nat
  | PyModel.rootM rt, g, k => genValue rt [] g k
  | PyModel.record fields, g, k =>
      let r := genFields fields g k
      (Value.obj r.1, r.2)

/-- The parsed JSON tree (the shape of `json.loads` output), identifying
Python lists and tuples — both serialize to arrays — and keeping arrays
and objects ordered.  `float mant scale` is a float literal with `scale`
fractional digits denoting `mant / 10 ^ scale`; `int` an integer
literal. -/
inductive Json where
  | null
  | bool  (b : Bool)
  | int   (i : Int)
  | float (mant : Int) (scale : Nat)
  | str   (s : String)
  | arr   (elems : List Json)
  | obj   (kvs : List (String × Json))

mutual
/-- The structural-identity map from a generated value to its parsed-back
JSON tree: tuples and lists both become arrays (Python serializes a tuple
as a JSON array and `json.loads` reads it back as a list); a float's
hundredths are put in the shortest decimal form `repr` would print
(at least one fractional digit). -/
def toJson : Value → Json
  | Value.null => Json.null
  | Value.bool b => Json.bool b
  | Value.int i => Json.int i
  | Value.float m => if m % 10 = 0 then Json.float (m / 10) 1 else Json.float m 2
  | Value.str s => Json.str s
  | Value.arr vs => Json.arr (toJsonList vs)
  | Value.tup vs => Json.arr (toJsonList vs)
  | Value.obj kvs => Json.obj (toJsonPairs kvs)
termination_by v => sizeOf v

def toJsonList : List Value → List Json
  | [] => []
  | v :: rest => toJson v :: toJsonList rest
termination_by vs => sizeOf vs

def toJsonPairs : List (String × Value) → List (String × Json)
  | [] => []
  | (s, v) :: rest => (s, toJson v) :: toJsonPairs rest
termination_by kvs => sizeOf kvs
end

def digitChars : List Char := ['0', '1', '2', '3', '4', '5', '6', '7', '8', '9']

def digitCh (d : Nat) : Char := digitChars.getD d '0'

/-- Decimal digits of `n`, most significant first. -/
def natToChars (n : Nat) : List Char :=
  if n = 0 then ['0'] else ((Nat.digits 10 n).map digitCh).reverse

/-- Fractional digits of a float literal: `fp` left-padded with zeros to
width `scale`. -/
def fracChars (fp scale : Nat) : List Char :=
  List.replicate (scale - (natToChars fp).length) '0' ++ natToChars fp

def intToChars (i : Int) : List Char :=
  if i < 0 then '-' :: natToChars i.natAbs else natToChars i.natAbs

/-- The decimal text of a float literal, as `repr` prints the decimal
floats this program produces (integer part, point, `scale` fractional
digits).  Python switches to scientific notation for huge magnitudes;
those never arise from the modelled collaborators and the round-trip
property is unaffected by the choice of notation. -/
def floatChars (mant : Int) (scale : Nat) : List Char :=
  (if mant < 0 then ['-'] else []) ++
    natToChars (mant.natAbs / 10 ^ scale) ++
    '.' :: fracChars (mant.natAbs % 10 ^ scale) scale

/-- `json.dumps` string escaping restricted to the printable-ASCII
characters this program can emit: quote and backslash get a backslash
escape, everything else is copied. -/
def escapeChars : List Char → List Char
  | [] => []
  | c :: rest =>
      if c = '"' ∨ c = '\\' then '\\' :: c :: escapeChars rest
      else c :: escapeChars rest

mutual
/-- `json.dumps(_, indent=4)` on a JSON tree, at indentation level `ind`:
containers open with a newline, indent children by four more spaces, and
close on a fresh line at the parent's indent; the item separator is a
comma followed by the newline-and-indent, the key separator is `": "`. -/
def renderJ : Json → Nat → List Char
  | Json.null, _ => ['n', 'u', 'l', 'l']
  | Json.bool true, _ => ['t', 'r', 'u', 'e']
  | Json.bool false, _ => ['f', 'a', 'l', 's', 'e']
  | Json.int i, _ => intToChars i
  | Json.float m s, _ => floatChars m s
  | Json.str s, _ => '"' :: escapeChars s.data ++ ['"']
  | Json.arr [], _ => ['[', ']']
  | Json.arr (x :: xs), ind =>
      '[' :: '\n' :: (List.replicate (ind + 4) ' ' ++ renderJ x (ind + 4) ++
        renderElems xs (ind + 4) ++ '\n' :: List.replicate ind ' ' ++ [']'])
  | Json.obj [], _ => ['\x7b', '\x7d']
  | Json.obj (kv :: kvs), ind =>
      '\x7b' :: '\n' :: (List.replicate (ind + 4) ' ' ++ renderMember kv (ind + 4) ++
        renderMembers kvs (ind + 4) ++ '\n' :: List.replicate ind ' ' ++ ['\x7d'])
termination_by j _ => sizeOf j

def renderElems : List Json → Nat → List Char
  | [], _ => []
  | x :: xs, ind =>
      ',' :: '\n' :: List.replicate ind ' ' ++ renderJ x ind ++ renderElems xs ind
termination_by xs _ => sizeOf xs

def renderMember : String × Json → Nat → List Char
  | (key, v), ind => '"' :: escapeChars key.data ++ '"' :: ':' :: ' ' :: renderJ v ind
termination_by kv _ => sizeOf kv

def renderMembers : List (String × Json) → Nat → List Char
  | [], _ => []
  | kv :: kvs, ind =>
      ',' :: '\n' :: List.replicate ind ' ' ++ renderMember kv ind ++ renderMembers kvs ind
termination_by kvs _ => sizeOf kvs
end

/-- `json.dumps(value, indent=4)` (line 125), with the tuples-to-arrays
identification `toJson` applied first, as serialization does. -/
def jsonDumps (v : Value) : String := String.mk (renderJ (toJson v) 0)

/-- `generate_dummy_data` (`main.py` lines 17 and 123-125): synthesize a
dummy instance of the model and serialize it to a JSON string. -/
def generate_dummy_data (model : PyModel) (g : Nat → Nat) (k : Nat) : String :=
  jsonDumps (genInstance model g k).1

def isWs (c : Char) : Bool := c == ' ' || c == '\t' || c == '\n' || c == '\r'

def skipWs (cs : List Char) : List Char := cs.dropWhile isWs

/-- Expect a literal continuation (used for `null`, `true`, `false`). -/
def stripPre : List Char → List Char → Option (List Char)
  | [], cs => some cs
  | e :: es, c :: cs => if c = e then stripPre es cs else none
  | _ :: _, [] => none

/-- Parse the rest of a JSON string literal, after its opening quote:
backslash escapes for quote and backslash (the ones the renderer emits),
any other non-control character literal; control characters are rejected
as `json.loads` does in strict mode. -/
def parseStrChars : List Char → Option (List Char × List Char)
  | [] => none
  | c :: rest =>
      if c = '"' then some ([], rest)
      else if c = '\\' then
        match rest with
        | [] => none
        | e :: rest2 =>
            if e = '"' ∨ e = '\\' then
              match parseStrChars rest2 with
              | some (s, r) => some (e :: s, r)
              | none => none
            else none
      else if c.toNat < 32 then none
      else
        match parseStrChars rest with
        | some (s, r) => some (c :: s, r)
        | none => none

def charVal (c : Char) : Nat := c.toNat - 48

def natOfChars (ds : List Char) : Nat := ds.foldl (fun a c => a * 10 + charVal c) 0

def intSign (neg : Bool) (n : Nat) : Int := if neg then -(n : Int) else (n : Int)

/-- Parse an unsigned JSON number (sign already consumed): an int literal
unless a fraction follows, a float literal with its fraction width
otherwise.  Exponent forms are not modelled: the renderer never emits
them (see `floatChars`). -/
def parseNumber (neg : Bool) (cs : List Char) : Option (Json × List Char) :=
  let ip := cs.takeWhile Char.isDigit
  let rest := cs.dropWhile Char.isDigit
  if ip.isEmpty then none
  else if rest.head? = some '.' then
    let rest2 := rest.tail
    let fr := rest2.takeWhile Char.isDigit
    let rest3 := rest2.dropWhile Char.isDigit
    if fr.isEmpty then none
    else some (Json.float (intSign neg (natOfChars ip * 10 ^ fr.length + natOfChars fr))
                 fr.length, rest3)
  else some (Json.int (intSign neg (natOfChars ip)), rest)

mutual
/-- A recursive-descent JSON parser (the grammar `json.loads` accepts on
the subset of documents the renderer produces), fuelled for termination:
`fuel` bounds the nesting-plus-element count, and a document is parsed
whole whenever `fuel` exceeds its node count. -/
def parseJ : Nat → List Char → Option (Json × List Char)
  | 0, _ => none
  | fuel + 1, cs =>
    match skipWs cs with
    | [] => none
    | c :: rest =>
      if c = 'n' then
        match stripPre ['u', 'l', 'l'] rest with
        | some r => some (Json.null, r)
        | none => none
      else if c = 't' then
        match stripPre ['r', 'u', 'e'] rest with
        | some r => some (Json.bool true, r)
        | none => none
      else if c = 'f' then
        match stripPre ['a', 'l', 's', 'e'] rest with
        | some r => some (Json.bool false, r)
        | none => none
      else if c = '"' then
        match parseStrChars rest with
        | some (s, r) => some (Json.str (String.mk s), r)
        | none => none
      else if c = '[' then
        let rest2 := skipWs rest
        if rest2.head? = some ']' then some (Json.arr [], rest2.tail)
        else
          match parseItems fuel rest2 with
          | some (vs, r) => some (Json.arr vs, r)
          | none => none
      else if c = '\x7b' then
        let rest2 := skipWs rest
        if rest2.head? = some '\x7d' then some (Json.obj [], rest2.tail)
        else
          match parseMembers fuel rest2 with
          | some (kvs, r) => some (Json.obj kvs, r)
          | none => none
      else if c = '-' then parseNumber true rest
      else if c.isDigit then parseNumber false (c :: rest)
      else none

/-- One or more comma-separated array items, ending at `]`. -/
def parseItems : Nat → List Char → Option (List Json × List Char)
  | 0, _ => none
  | fuel + 1, cs =>
    match parseJ fuel cs with
    | some (v, r) =>
      let r2 := skipWs r
      if r2.head? = some ',' then
        match parseItems fuel r2.tail with
        | some (vs, r3) => some (v :: vs, r3)
        | none => none
      else if r2.head? = some ']' then some ([v], r2.tail)
      else none
    | none => none

/-- One or more comma-separated object members, ending at the closing
brace. -/
def parseMembers : Nat → List Char → Option (List (String × Json) × List Char)
  | 0, _ => none
  | fuel + 1, cs =>
    match skipWs cs with
    | [] => none
    | c :: rest =>
      if c = '"' then
        match parseStrChars rest with
        | some (s, r) =>
          let r2 := skipWs r
          if r2.head? = some ':' then
            match parseJ fuel r2.tail with
            | some (v, r3) =>
              let r4 := skipWs r3
              if r4.head? = some ',' then
                match parseMembers fuel r4.tail with
                | some (kvs, r5) => some ((String.mk s, v) :: kvs, r5)
                | none => none
              else if r4.head? = some '\x7d' then some ([(String.mk s, v)], r4.tail)
              else none
            | none => none
          else none
        | none => none
      else none
end

/-- `json.loads`: parse one document, allowing only trailing whitespace.
The fuel `length + 1` always suffices (a document's node count is below
its text length). -/
def jsonLoads (s : String) : Option Json :=
  match parseJ (s.data.length + 1) s.data with
  | some (j, rest) => if (skipWs rest).isEmpty then some j else none
  | none => none

mutual
/-- Node-count measure used for the parser's fuel accounting. -/
def sizeJ : Json → Nat
  | Json.arr xs => 1 + sizeL xs
  | Json.obj kvs => 1 + sizeM kvs
  | _ => 1
termination_by j => sizeOf j

def sizeL : List Json → Nat
  | [] => 0
  | x :: xs => 1 + sizeJ x + sizeL xs
termination_by xs => sizeOf xs

def sizeM : List (String × Json) → Nat
  | [] => 0
  | (_, v) :: kvs => 1 + sizeJ v + sizeM kvs
termination_by kvs => sizeOf kvs
end

/-- Printable ASCII: what the program's modelled text collaborators and
schema strings consist of; `json.dumps` round-trips these through the
quote/backslash escapes alone. -/
def safeChar (c : Char) : Bool := 32 ≤ c.toNat && c.toNat ≤ 126

mutual
/-- Well-formedness of a JSON tree for the round-trip: float literals
have at least one fractional digit (as `toJson` produces) and strings are
printable ASCII. -/
def wfJ : Json → Bool
  | Json.float _ s => decide (1 ≤ s)
  | Json.str s => s.data.all safeChar
  | Json.arr xs => wfL xs
  | Json.obj kvs => wfM kvs
  | _ => true
termination_by j => sizeOf j

def wfL : List Json → Bool
  | [] => true
  | x :: xs => wfJ x && wfL xs
termination_by xs => sizeOf xs

def wfM : List (String × Json) → Bool
  | [] => true
  | (key, v) :: kvs => key.data.all safeChar && wfJ v && wfM kvs
termination_by kvs => sizeOf kvs
end

mutual
/-- All strings (including dict keys) in a generated value are printable
ASCII. -/
def safeVal : Value → Bool
  | Value.str s => s.data.all safeChar
  | Value.arr vs => safeValL vs
  | Value.tup vs => safeValL vs
  | Value.obj kvs => safeValM kvs
  | _ => true
termination_by v => sizeOf v

def safeValL : List Value → Bool
  | [] => true
  | v :: vs => safeVal v && safeValL vs
termination_by vs => sizeOf vs

def safeValM : List (String × Value) → Bool
  | [] => true
  | (key, v) :: kvs => key.data.all safeChar && safeVal v && safeValM kvs
termination_by kvs => sizeOf kvs
end

mutual
/-- All text baked into a schema — enumeration stored values and nested
field names — is printable ASCII (true of every schema in the repository;
`json.dumps` would escape anything else). -/
def safeTy : FieldType → Bool
  | FieldType.union args => safeTyL args
  | FieldType.modelTy pm => safeModel pm
  | FieldType.enumTy vals => safeValL vals
  | FieldType.listTy e => safeTy e
  | FieldType.dictTy kt vt => safeTy kt && safeTy vt
  | FieldType.tupleTy args => safeTyL args
  | _ => true
termination_by t => sizeOf t

def safeTyL : List FieldType → Bool
  | [] => true
  | t :: ts => safeTy t && safeTyL ts
termination_by ts => sizeOf ts

def safeModel : PyModel → Bool
  | PyModel.rootM rt => safeTy rt
  | PyModel.record fields => safeFields fields
termination_by pm => sizeOf pm

def safeFields : List FieldDecl → Bool
  | [] => true
  | FieldDecl.mk n t _ :: rest => n.data.all safeChar && safeTy t && safeFields rest
termination_by fs => sizeOf fs
end

/-- The integer lower bound as the spec words it: `constraints.ge`, or
else `constraints.gt + 1`, or else `2`. -/
def specIntLo (m : Metadata) : Int :=
  match mlookup m "ge" with
  | some (CVal.vint i) => i
  | _ =>
    match mlookup m "gt" with
    | some (CVal.vint j) => j + 1
    | _ => 2

/-- The integer upper bound as the spec words it: `constraints.le`, or
else `constraints.lt - 1`, or else `999`. -/
def specIntHi (m : Metadata) : Int :=
  match mlookup m "le" with
  | some (CVal.vint i) => i
  | _ =>
    match mlookup m "lt" with
    | some (CVal.vint j) => j - 1
    | _ => 999

/-- The constraint names the extractor can emit: the seven
`StringConstraints` attributes and the four `Interval` bounds. -/
def recognizedNames : List String :=
  ["strip_whitespace", "to_upper", "to_lower", "strict", "min_length",
   "max_length", "pattern", "gt", "ge", "lt", "le"]

/-- The characters that can follow a rendered number in the renderer's
output: end of document or a separator. -/
def numDelim : List Char → Bool
  | [] => true
  | c :: _ => c = ',' || c = '\n' || c = ']' || c = '\x7d'

lemma intLo_eq_spec (m : Metadata) : intLo m = specIntLo m := by
  unfold intLo specIntLo getI
  rcases mlookup m "ge" with _ | c1 <;> rcases mlookup m "gt" with _ | c2 <;>
    (try cases c1) <;> (try cases c2) <;> rfl

lemma intHi_eq_spec (m : Metadata) : intHi m = specIntHi m := by
  unfold intHi specIntHi getI
  rcases mlookup m "le" with _ | c1 <;> rcases mlookup m "lt" with _ | c2 <;>
    (try cases c1) <;> (try cases c2) <;> rfl

lemma mem_upsert {α : Type} (l : List (String × α)) (k : String) (v : α)
    (x : String × α) (hx : x ∈ upsert l k v) : x ∈ l ∨ x.1 = k := by
  induction l with
  | nil => simp [upsert] at hx; simp [hx]
  | cons p rest ih =>
    obtain ⟨k0, v0⟩ := p
    by_cases h : k0 = k
    · simp [upsert, h] at hx
      rcases hx with hx | hx
      · right; simp [hx]
      · left; simp [hx]
    · simp [upsert, h] at hx
      rcases hx with hx | hx
      · left; simp [hx]
      · rcases ih hx with h1 | h1
        · left; simp [h1]
        · right; exact h1

lemma annoPairs_names (item : Anno) :
    ∀ kv ∈ annoPairs item, kv.1 ∈ recognizedNames := by
  cases item <;> intro kv hkv <;> simp [annoPairs] at hkv <;>
    first
      | (rcases hkv with h | h | h | h | h | h | h <;> simp [h, recognizedNames])
      | (rcases hkv with h | h | h | h <;> simp [h, recognizedNames])

lemma foldPairs_names (ps : List (String × CVal)) (acc : Metadata)
    (hps : ∀ kv ∈ ps, kv.1 ∈ recognizedNames)
    (hacc : ∀ kv ∈ acc, kv.1 ∈ recognizedNames) :
    ∀ kv ∈ ps.foldl (fun a kv => upsert a kv.1 kv.2) acc, kv.1 ∈ recognizedNames := by
  induction ps generalizing acc with
  | nil => simpa using hacc
  | cons p rest ih =>
    intro kv hkv
    simp only [List.foldl_cons] at hkv
    refine ih (upsert acc p.1 p.2) (fun x hx => hps x (by simp [hx])) ?_ kv hkv
    intro x hx
    rcases mem_upsert acc p.1 p.2 x hx with h | h
    · exact hacc x h
    · rw [h]; exact hps p (by simp)

lemma extractFold_names (items : List Anno) (acc : Metadata)
    (hacc : ∀ kv ∈ acc, kv.1 ∈ recognizedNames) :
    ∀ kv ∈ items.foldl
      (fun acc item => (annoPairs item).foldl (fun a kv => upsert a kv.1 kv.2) acc) acc,
      kv.1 ∈ recognizedNames := by
  induction items generalizing acc with
  | nil => simpa using hacc
  | cons item rest ih =>
    intro kv hkv
    exact ih _ (foldPairs_names (annoPairs item) acc (annoPairs_names item) hacc) kv hkv

/-- C1: for an integer-typed field with constraint dict `m`, the
synthesized value is an integer `x` with `lo ≤ x ≤ hi`, where `lo` is
`m.ge` if present, else `m.gt + 1` if `gt` is present, else `2`, and `hi`
is `m.le` if present, else `m.lt - 1` if `lt` is present, else `999` —
under the precondition `lo ≤ hi`.  The first two conjuncts record that
the code's bound derivation (lines 79-80) coincides with the spec's. -/
theorem c1_integer_in_bounds (m : Metadata) (g : Nat → Nat) (k : Nat)
    (h : specIntLo m ≤ specIntHi m) :
    intLo m = specIntLo m ∧ intHi m = specIntHi m ∧
    ∃ x : Int, (genValue FieldType.intT m g k).1 = Value.int x ∧
      specIntLo m ≤ x ∧ x ≤ specIntHi m := by
  refine ⟨intLo_eq_spec m, intHi_eq_spec m,
    randomInt (intLo m) (intHi m) (g k), by simp [genValue], ?_, ?_⟩ <;>
  · rw [intLo_eq_spec, intHi_eq_spec] at *
    unfold randomInt
    have h1 : (0:Int) < specIntHi m - specIntLo m + 1 := by omega
    have h2 := Int.emod_nonneg (g k : Int) (by omega : specIntHi m - specIntLo m + 1 ≠ 0)
    have h3 := Int.emod_lt_of_pos (g k : Int) h1
    omega

/-- Witness for C1 at the concrete constraint dict `ge = 5, le = 7`. -/
theorem c1_witness :
    specIntLo [("ge", CVal.vint 5), ("le", CVal.vint 7)] ≤
      specIntHi [("ge", CVal.vint 5), ("le", CVal.vint 7)] ∧
    (intLo [("ge", CVal.vint 5), ("le", CVal.vint 7)] =
      specIntLo [("ge", CVal.vint 5), ("le", CVal.vint 7)] ∧
     intHi [("ge", CVal.vint 5), ("le", CVal.vint 7)] =
      specIntHi [("ge", CVal.vint 5), ("le", CVal.vint 7)] ∧
     ∃ x : Int,
      (genValue FieldType.intT [("ge", CVal.vint 5), ("le", CVal.vint 7)] (fun _ => 1) 0).1 =
        Value.int x ∧
      specIntLo [("ge", CVal.vint 5), ("le", CVal.vint 7)] ≤ x ∧
      x ≤ specIntHi [("ge", CVal.vint 5), ("le", CVal.vint 7)]) :=
  ⟨by decide, c1_integer_in_bounds _ (fun _ => 1) 0 (by decide)⟩

/-- C2 is false as stated: at the oracle that repeats the same word draw,
the two generated dict keys collide and Python dict semantics keep ONE
entry, not two.  Concretely, for a `Dict[str, int]` field with no
constraints and the all-zeros oracle, both key draws yield `fakeWord 0`
and the synthesized mapping has exactly one entry. -/
theorem c2_counterexample :
    (genValue (FieldType.dictTy FieldType.strT FieldType.intT) [] (fun _ => 0) 0).1 =
      Value.obj [(fakeWord 0, Value.int 2)] ∧
    [(fakeWord 0, Value.int 2)].length ≠ 2 := by
  constructor
  · simp [genValue, upsert, intLo, intHi, getI, mlookup, randomInt]
  · decide

/-- C2 (amended): for every Mapping-typed field and every outcome of the
randomness source, the synthesized value is a mapping whose keys are the
generated text tokens; it has exactly 2 entries when the two generated
key tokens differ, and 1 entry when they collide (the colliding key is
deduplicated by dict semantics, the second value overwriting the
first). -/
theorem c2_mapping_entries (kt valTy : FieldType) (m : Metadata) (g : Nat → Nat) (k : Nat) :
    ∃ l, (genValue (FieldType.dictTy kt valTy) m g k).1 = Value.obj l ∧
      l.map Prod.fst =
        (if fakeWord (g k) = fakeWord (g (genValue valTy m g (k+1)).2)
         then [fakeWord (g k)]
         else [fakeWord (g k), fakeWord (g (genValue valTy m g (k+1)).2)]) ∧
      l.length = (if fakeWord (g k) = fakeWord (g (genValue valTy m g (k+1)).2) then 1 else 2) := by
  have hval : (genValue (FieldType.dictTy kt valTy) m g k).1 =
      Value.obj (upsert (upsert [] (fakeWord (g k)) (genValue valTy m g (k+1)).1)
        (fakeWord (g (genValue valTy m g (k+1)).2))
        (genValue valTy m g ((genValue valTy m g (k+1)).2 + 1)).1) := by
    simp [genValue]
  refine ⟨_, hval, ?_, ?_⟩ <;>
    by_cases h : fakeWord (g k) = fakeWord (g (genValue valTy m g (k+1)).2) <;>
      simp [upsert, h]

/-- C4: for a text-typed field whose constraint dict gives
`min_length = max_length = L` (with `L ≥ 0`, as pydantic requires), the
synthesized string has length exactly `L` (lines 90-91). -/
theorem c4_exact_length (m : Metadata) (g : Nat → Nat) (k : Nat) (L : Int)
    (hmin : getI m "min_length" 5 = L) (hmax : getI m "max_length" 15 = L)
    (hL : 0 ≤ L) :
    ∃ s : String, (genValue FieldType.strT m g k).1 = Value.str s ∧
      (s.length : Int) = L := by
  refine ⟨fakePystr L.toNat L.toNat (g k), by simp [genValue, hmin, hmax], ?_⟩
  unfold fakePystr
  simp [String.length]
  omega

/-- Witness for C4 at the concrete constraint dict
`min_length = max_length = 7`. -/
theorem c4_witness :
    getI [("min_length", CVal.vint 7), ("max_length", CVal.vint 7)] "min_length" 5 = 7 ∧
    getI [("min_length", CVal.vint 7), ("max_length", CVal.vint 7)] "max_length" 15 = 7 ∧
    (0:Int) ≤ 7 ∧
    ∃ s : String,
      (genValue FieldType.strT [("min_length", CVal.vint 7), ("max_length", CVal.vint 7)]
        (fun _ => 0) 0).1 = Value.str s ∧ (s.length : Int) = 7 :=
  ⟨by decide, by decide, by decide,
   c4_exact_length _ (fun _ => 0) 0 7 (by decide) (by decide) (by decide)⟩

/-- C5: the Constraint Extractor's output contains only recognized
constraint names mapped to non-null values; an unknown metadata item
contributes nothing (ignored without error, at any position); and no
constraints at all yield the empty dict rather than a failure
(`extract_metadata` is total). -/
theorem c5_extractor (items pre post : List Anno) :
    (∀ kv ∈ extract_metadata items, kv.1 ∈ recognizedNames ∧ kv.2 ≠ CVal.vnone) ∧
    extract_metadata (pre ++ Anno.unknownAnno :: post) = extract_metadata (pre ++ post) ∧
    extract_metadata [] = [] := by
  refine ⟨?_, ?_, rfl⟩
  · intro kv hkv
    unfold extract_metadata at hkv
    rw [List.mem_filter] at hkv
    refine ⟨extractFold_names items [] (by simp) kv hkv.1, ?_⟩
    have h2 := hkv.2
    cases hv : kv.2 <;> simp [isVnone, hv] at h2 ⊢
  · unfold extract_metadata
    simp [List.foldl_append, annoPairs]

/-- Witness for C5 at a concrete `Interval(ge=5)` annotation and a
concrete unknown annotation. -/
theorem c5_witness :
    (("ge", CVal.vint 5) ∈
        extract_metadata [Anno.interval none (some (CVal.vint 5)) none none] →
      ("ge", CVal.vint 5).1 ∈ recognizedNames ∧ ("ge", CVal.vint 5).2 ≠ CVal.vnone) ∧
    extract_metadata [Anno.unknownAnno] = extract_metadata [] :=
  ⟨fun h => (c5_extractor [Anno.interval none (some (CVal.vint 5)) none none] [] []).1 _ h,
   by simpa using (c5_extractor [] [] []).2.1⟩

/-- C6: for every nested-record field and every outcome of the randomness
source, the synthesized record's keys are exactly the nested schema's
declared field names, in declared order; with zero fields the record is
empty (`l = []` is forced by the `map` equation). -/
theorem c6_record_keys (fields : List FieldDecl) (m : Metadata) (g : Nat → Nat) (k : Nat) :
    ∃ l, (genValue (FieldType.modelTy (PyModel.record fields)) m g k).1 = Value.obj l ∧
      l.map Prod.fst = fields.map FieldDecl.fname := by
  refine ⟨(genFields fields g k).1, by simp [genValue], ?_⟩
  induction fields generalizing k with
  | nil => simp [genFields]
  | cons f rest ih => cases f with
    | mk n t a => simp [genFields, FieldDecl.fname]; exact ih _

/-- C7: for an Optional-typed field (a Union whose arguments include
`NoneType`), both outcomes are reachable: the all-zeros oracle yields the
absent value `None`, and the all-ones oracle yields the value synthesized
from the wrapped (first non-`None`) shape. -/
theorem c7_optional_reachable (args : List FieldType) (m : Metadata) (k : Nat)
    (hnone : args.any isNoneT = true) :
    (genValue (FieldType.union args) m (fun _ => 0) k).1 = Value.null ∧
    (genValue (FieldType.union args) m (fun _ => 1) k).1 =
      (genUnionWrapped args m (fun _ => 1) k).1 := by
  constructor <;> simp [genValue, hnone, choiceD]

/-- Witness for C7 at the concrete shape `Optional[int]`. -/
theorem c7_witness :
    (genValue (FieldType.union [FieldType.intT, FieldType.noneT]) [] (fun _ => 0) 0).1 =
      Value.null ∧
    (genValue (FieldType.union [FieldType.intT, FieldType.noneT]) [] (fun _ => 1) 0).1 =
      (genUnionWrapped [FieldType.intT, FieldType.noneT] [] (fun _ => 1) 0).1 :=
  c7_optional_reachable [FieldType.intT, FieldType.noneT] [] 0 (by decide)

/-- C8: a boolean-typed field always produces a boolean via the boolean
rule (line 74), never a number — even though `issubclass(bool, int)`
holds in Python (second conjunct), so without the priority of the bool
check the integer rule (third conjunct) would have matched. -/
theorem c8_bool_priority (m : Metadata) (g : Nat → Nat) (k : Nat) :
    (genValue FieldType.boolT m g k).1 = Value.bool (fakeBoolean (g k)) ∧
    pySubclassOfInt FieldType.boolT = true ∧
    (genValue FieldType.intT m g k).1 = Value.int (randomInt (intLo m) (intHi m) (g k)) :=
  ⟨by simp [genValue], rfl, by simp [genValue]⟩

/-- C9: a shape matched by no dispatch rule returns the null value and
consumes no randomness, without raising: a `Union` of concrete types that
does not include `NoneType` (e.g. `Union[int, str]`), and any other
unrecognized shape. -/
theorem c9_unmatched_null (args : List FieldType) (m : Metadata) (g : Nat → Nat) (k : Nat)
    (h : args.any isNoneT = false) :
    genValue (FieldType.union args) m g k = (Value.null, k) ∧
    genValue FieldType.other m g k = (Value.null, k) := by
  constructor <;> simp [genValue, h]

/-- Witness for C9 at the concrete shape `Union[int, str]`. -/
theorem c9_witness :
    genValue (FieldType.union [FieldType.intT, FieldType.strT]) [] (fun _ => 0) 0 =
      (Value.null, 0) ∧
    genValue FieldType.other [] (fun _ => 0) 0 = (Value.null, 0) :=
  c9_unmatched_null [FieldType.intT, FieldType.strT] [] (fun _ => 0) 0 (by decide)

/-- C10: the constraint dict attached to a field is passed down unchanged
to the synthesis of every element: all three Sequence elements, both
Mapping values, every Fixed-Tuple position, and the wrapped value of an
Optional are generated with the same `m` the container received. -/
theorem c10_metadata_propagates (elem valTy w kt : FieldType)
    (ts : List FieldType) (m : Metadata) (g : Nat → Nat) (k : Nat) :
    genValue (FieldType.listTy elem) m g k =
      (Value.arr [(genValue elem m g k).1,
                  (genValue elem m g (genValue elem m g k).2).1,
                  (genValue elem m g (genValue elem m g (genValue elem m g k).2).2).1],
       (genValue elem m g (genValue elem m g (genValue elem m g k).2).2).2) ∧
    genValue (FieldType.dictTy kt valTy) m g k =
      (Value.obj (upsert (upsert [] (fakeWord (g k)) (genValue valTy m g (k+1)).1)
          (fakeWord (g (genValue valTy m g (k+1)).2))
          (genValue valTy m g ((genValue valTy m g (k+1)).2 + 1)).1),
       (genValue valTy m g ((genValue valTy m g (k+1)).2 + 1)).2) ∧
    genTupleVals (w :: ts) m g k =
      ((genValue w m g k).1 :: (genTupleVals ts m g (genValue w m g k).2).1,
       (genTupleVals ts m g (genValue w m g k).2).2) ∧
    genValue (FieldType.tupleTy ts) m g k =
      (Value.tup (genTupleVals ts m g k).1, (genTupleVals ts m g k).2) ∧
    genUnionWrapped (w :: ts) m g k =
      (if isNoneT w then genUnionWrapped ts m g k else genValue w m g k) := by
  refine ⟨by simp [genValue], by simp [genValue], ?_, by simp [genValue], ?_⟩
  · simp [genTupleVals]
  · simp [genUnionWrapped]

-- Whitespace and character facts used by the parser proofs.

lemma strMk_data (s : String) : String.mk s.data = s := rfl

lemma skipWs_nil : skipWs [] = [] := rfl

lemma skipWs_cons_not (c : Char) (cs : List Char) (h : isWs c = false) :
    skipWs (c :: cs) = c :: cs := by
  simp [skipWs, List.dropWhile, h]

lemma skipWs_cons_ws (c : Char) (cs : List Char) (h : isWs c = true) :
    skipWs (c :: cs) = skipWs cs := by
  simp [skipWs, List.dropWhile, h]

lemma skipWs_append_all (pre cs : List Char) (h : ∀ c ∈ pre, isWs c = true) :
    skipWs (pre ++ cs) = skipWs cs := by
  induction pre with
  | nil => rfl
  | cons c rest ih =>
    rw [List.cons_append, skipWs_cons_ws c _ (h c (by simp)),
      ih (fun x hx => h x (by simp [hx]))]

lemma parseJ_ws (fuel : Nat) (pre cs : List Char) (h : ∀ c ∈ pre, isWs c = true) :
    parseJ fuel (pre ++ cs) = parseJ fuel cs := by
  cases fuel with
  | zero => rfl
  | succ fuel => rw [parseJ, parseJ, skipWs_append_all pre cs h]

lemma digit_head_facts (c : Char) (h : c.isDigit = true) :
    isWs c = false ∧ c ≠ ']' ∧ c ≠ '\x7d' ∧ c ≠ 'n' ∧ c ≠ 't' ∧ c ≠ 'f' ∧
    c ≠ '"' ∧ c ≠ '[' ∧ c ≠ '\x7b' ∧ c ≠ '-' ∧ c ≠ '.' ∧ c ≠ ',' ∧ c ≠ ':' := by
  have h1 : c ≠ ' ' := fun e => by subst e; exact absurd h (by decide)
  have h2 : c ≠ '\t' := fun e => by subst e; exact absurd h (by decide)
  have h3 : c ≠ '\n' := fun e => by subst e; exact absurd h (by decide)
  have h4 : c ≠ '\r' := fun e => by subst e; exact absurd h (by decide)
  refine ⟨by simp [isWs, h1, h2, h3, h4], ?_, ?_, ?_, ?_, ?_, ?_, ?_, ?_, ?_, ?_, ?_, ?_⟩ <;>
    exact fun e => by subst e; exact absurd h (by decide)

-- Decimal digit printing and parsing.

lemma digitCh_isDigit : ∀ d, d < 10 → (digitCh d).isDigit = true := by decide

lemma charVal_digitCh : ∀ d, d < 10 → charVal (digitCh d) = d := by decide

lemma natToChars_all_digits (n : Nat) : (natToChars n).all Char.isDigit = true := by
  unfold natToChars
  by_cases h : n = 0
  · simp [h]
  · simp [h, List.all_reverse, List.all_map]
    intro d hd
    exact digitCh_isDigit d (Nat.digits_lt_base (by norm_num) hd)

lemma natToChars_ne_nil (n : Nat) : natToChars n ≠ [] := by
  unfold natToChars
  by_cases h : n = 0
  · simp [h]
  · simp [h]
    exact Nat.digits_ne_nil_iff_ne_zero.mpr h

lemma natOfChars_append_one (xs : List Char) (c : Char) :
    natOfChars (xs ++ [c]) = natOfChars xs * 10 + charVal c := by
  simp [natOfChars, List.foldl_append]

lemma natOfChars_rev_map (l : List Nat) (h : ∀ d ∈ l, d < 10) :
    natOfChars ((l.map digitCh).reverse) = Nat.ofDigits 10 l := by
  induction l with
  | nil => simp [natOfChars, Nat.ofDigits]
  | cons d ds ih =>
    have hd : d < 10 := h d (by simp)
    have hds : ∀ x ∈ ds, x < 10 := fun x hx => h x (by simp [hx])
    simp only [List.map_cons, List.reverse_cons]
    rw [natOfChars_append_one, ih hds, Nat.ofDigits_cons, charVal_digitCh d hd]
    ring

lemma natOfChars_natToChars (n : Nat) : natOfChars (natToChars n) = n := by
  unfold natToChars
  by_cases h : n = 0
  · simp [h, natOfChars, charVal]
  · simp [h]
    rw [natOfChars_rev_map _ (fun d hd => Nat.digits_lt_base (by norm_num) hd)]
    exact Nat.ofDigits_digits 10 n

lemma natOfChars_replicate_zero (k : Nat) (cs : List Char) :
    natOfChars (List.replicate k '0' ++ cs) = natOfChars cs := by
  induction k with
  | zero => simp
  | succ k ih =>
    rw [List.replicate_succ, List.cons_append]
    show List.foldl _ (0 * 10 + charVal '0') _ = _
    have : (0 : Nat) * 10 + charVal '0' = 0 := by decide
    rw [this]
    exact ih

lemma natToChars_length_le (fp s : Nat) (h : fp < 10 ^ s) (hs : 1 ≤ s) :
    (natToChars fp).length ≤ s := by
  unfold natToChars
  by_cases h0 : fp = 0
  · simpa [h0] using hs
  · simp [h0]
    rw [Nat.digits_len 10 fp (by norm_num) h0]
    have := Nat.log_lt_of_lt_pow h0 h
    omega

lemma noHead_all_split (p : Char → Bool) (ds rest : List Char)
    (hds : ∀ c ∈ ds, p c = true)
    (hrest : ∀ c ∈ rest.head?, p c = false) :
    (ds ++ rest).takeWhile p = ds ∧ (ds ++ rest).dropWhile p = rest := by
  induction ds with
  | nil =>
    cases rest with
    | nil => simp
    | cons c t =>
      have := hrest c (by simp)
      simp [List.takeWhile, List.dropWhile, this]
  | cons d ds ih =>
    have := ih (fun x hx => hds x (by simp [hx]))
    simp [List.takeWhile, List.dropWhile, hds d (by simp), this.1, this.2]

-- Number literals round-trip through the parser.

lemma numDelim_head (rest : List Char) (h : numDelim rest = true) :
    (∀ c ∈ rest.head?, Char.isDigit c = false) ∧ rest.head? ≠ some '.' := by
  cases rest with
  | nil => simp
  | cons c t =>
    simp [numDelim] at h
    rcases h with ((rfl | rfl) | rfl) | rfl <;> simp

lemma natToChars_forall_digits (n : Nat) : ∀ c ∈ natToChars n, c.isDigit = true := by
  have := natToChars_all_digits n
  simpa [List.all_eq_true] using this

lemma natToChars_isEmpty_false (n : Nat) : (natToChars n).isEmpty = false := by
  cases h : natToChars n with
  | nil => exact absurd h (natToChars_ne_nil n)
  | cons c t => rfl

lemma fracChars_forall_digits (fp s : Nat) : ∀ c ∈ fracChars fp s, c.isDigit = true := by
  intro c hc
  unfold fracChars at hc
  rw [List.mem_append] at hc
  rcases hc with hc | hc
  · rw [List.eq_of_mem_replicate hc]; decide
  · exact natToChars_forall_digits fp c hc

lemma fracChars_ne_nil (fp s : Nat) : fracChars fp s ≠ [] := by
  unfold fracChars
  intro h
  rw [List.append_eq_nil] at h
  exact natToChars_ne_nil fp h.2

lemma fracChars_isEmpty_false (fp s : Nat) : (fracChars fp s).isEmpty = false := by
  cases h : fracChars fp s with
  | nil => exact absurd h (fracChars_ne_nil fp s)
  | cons c t => rfl

lemma fracChars_length (fp s : Nat) (hfp : fp < 10 ^ s) (hs : 1 ≤ s) :
    (fracChars fp s).length = s := by
  unfold fracChars
  have := natToChars_length_le fp s hfp hs
  simp [List.length_replicate]
  omega

lemma natOfChars_fracChars (fp s : Nat) : natOfChars (fracChars fp s) = fp := by
  unfold fracChars
  rw [natOfChars_replicate_zero, natOfChars_natToChars]

lemma parseNumber_int_chars (n : Nat) (neg : Bool) (rest : List Char)
    (hrest : numDelim rest = true) :
    parseNumber neg (natToChars n ++ rest) = some (Json.int (intSign neg n), rest) := by
  obtain ⟨hdig, hdot⟩ := numDelim_head rest hrest
  have hsplit := noHead_all_split Char.isDigit (natToChars n) rest
    (natToChars_forall_digits n) hdig
  unfold parseNumber
  rw [hsplit.1, hsplit.2]
  simp only [natToChars_isEmpty_false n, Bool.false_eq_true, if_false]
  rw [if_neg ?hdot, natOfChars_natToChars]
  case hdot => simpa using hdot

lemma parseNumber_float_chars (ipn fp s : Nat) (neg : Bool) (rest : List Char)
    (hfp : fp < 10 ^ s) (hs : 1 ≤ s) (hrest : numDelim rest = true) :
    parseNumber neg (natToChars ipn ++ '.' :: (fracChars fp s ++ rest)) =
      some (Json.float (intSign neg (ipn * 10 ^ s + fp)) s, rest) := by
  obtain ⟨hdig, _⟩ := numDelim_head rest hrest
  have hsplit1 := noHead_all_split Char.isDigit (natToChars ipn)
    ('.' :: (fracChars fp s ++ rest)) (natToChars_forall_digits ipn)
    (by intro c hc; simp at hc; subst hc; decide)
  have hsplit2 := noHead_all_split Char.isDigit (fracChars fp s) rest
    (fracChars_forall_digits fp s) hdig
  unfold parseNumber
  rw [hsplit1.1, hsplit1.2]
  simp only [natToChars_isEmpty_false ipn, Bool.false_eq_true, if_false,
    List.head?_cons, List.tail_cons, if_pos rfl]
  rw [hsplit2.1, hsplit2.2]
  simp only [fracChars_isEmpty_false fp s, Bool.false_eq_true, if_false]
  rw [natOfChars_natToChars, natOfChars_fracChars, fracChars_length fp s hfp hs]
  simp

-- String literals round-trip through the escapes.

lemma parseStr_escape (l rest : List Char) (h : ∀ c ∈ l, safeChar c = true) :
    parseStrChars (escapeChars l ++ '"' :: rest) = some (l, rest) := by
  induction l with
  | nil => simp [escapeChars, parseStrChars.eq_def]
  | cons c t ih =>
    have hc := h c (by simp)
    have ht := ih (fun x hx => h x (by simp [hx]))
    by_cases hesc : c = '"' ∨ c = '\\'
    · simp only [escapeChars, if_pos hesc, List.cons_append]
      rw [parseStrChars.eq_def]
      simp [hesc, ht]
    · simp only [escapeChars, if_neg hesc, List.cons_append]
      rw [parseStrChars.eq_def]
      push_neg at hesc
      have h32 : ¬ c.toNat < 32 := by
        simp [safeChar] at hc
        omega
      simp [hesc.1, hesc.2, h32, ht]

-- The first character of any rendered value.

lemma natToChars_head (n : Nat) :
    ∃ d t, natToChars n = d :: t ∧ d.isDigit = true := by
  cases h : natToChars n with
  | nil => exact absurd h (natToChars_ne_nil n)
  | cons d t =>
    refine ⟨d, t, rfl, ?_⟩
    have := natToChars_forall_digits n
    rw [h] at this
    exact this d (by simp)

lemma renderJ_head (j : Json) (ind : Nat) :
    ∃ c t, renderJ j ind = c :: t ∧ isWs c = false ∧ c ≠ ']' ∧ c ≠ '\x7d' := by
  cases j with
  | null => exact ⟨'n', _, by rw [renderJ], by decide, by decide, by decide⟩
  | bool b =>
    cases b with
    | true => exact ⟨'t', _, by rw [renderJ], by decide, by decide, by decide⟩
    | false => exact ⟨'f', _, by rw [renderJ], by decide, by decide, by decide⟩
  | int i =>
    rw [renderJ]
    unfold intToChars
    by_cases hi : i < 0
    · exact ⟨'-', _, by rw [if_pos hi], by decide, by decide, by decide⟩
    · rw [if_neg hi]
      obtain ⟨d, t, hdt, hd⟩ := natToChars_head i.natAbs
      obtain ⟨h1, h2, h3, _⟩ := digit_head_facts d hd
      exact ⟨d, t, hdt, h1, h2, h3⟩
  | float m s =>
    rw [renderJ]
    unfold floatChars
    by_cases hm : m < 0
    · exact ⟨'-', _, by rw [if_pos hm]; rfl, by decide, by decide, by decide⟩
    · rw [if_neg hm]
      obtain ⟨d, t, hdt, hd⟩ := natToChars_head (m.natAbs / 10 ^ s)
      obtain ⟨h1, h2, h3, _⟩ := digit_head_facts d hd
      exact ⟨d, _, by rw [List.nil_append, hdt]; rfl, h1, h2, h3⟩
  | str s =>
    exact ⟨'"', escapeChars s.data ++ ['"'], by rw [renderJ, List.cons_append],
      by decide, by decide, by decide⟩
  | arr xs =>
    cases xs with
    | nil => exact ⟨'[', _, by rw [renderJ], by decide, by decide, by decide⟩
    | cons x t => exact ⟨'[', _, by rw [renderJ], by decide, by decide, by decide⟩
  | obj kvs =>
    cases kvs with
    | nil => exact ⟨'\x7b', _, by rw [renderJ], by decide, by decide, by decide⟩
    | cons kv t => exact ⟨'\x7b', _, by rw [renderJ], by decide, by decide, by decide⟩

-- The renderer output parses back to the same tree, by fuel induction.

lemma sizeJ_pos (j : Json) : 1 ≤ sizeJ j := by
  cases j <;> simp [sizeJ]

lemma numDelim_relems (xs : List Json) (ind pad : Nat) (rest : List Char) :
    numDelim (renderElems xs ind ++ '\n' :: List.replicate pad ' ' ++ ']' :: rest) = true := by
  cases xs <;> simp [renderElems, numDelim]

lemma numDelim_rmembers (kvs : List (String × Json)) (ind pad : Nat) (rest : List Char) :
    numDelim (renderMembers kvs ind ++ '\n' :: List.replicate pad ' ' ++ '\x7d' :: rest) = true := by
  cases kvs with
  | nil => simp [renderMembers, numDelim]
  | cons kv t => simp [renderMembers, numDelim]

lemma renderJ_append_facts (j : Json) (ind : Nat) (X : List Char) :
    skipWs (renderJ j ind ++ X) = renderJ j ind ++ X ∧
    (renderJ j ind ++ X).head? ≠ some ']' ∧
    (renderJ j ind ++ X).head? ≠ some '\x7d' := by
  obtain ⟨c, t, hct, hws, hne1, hne2⟩ := renderJ_head j ind
  rw [hct, List.cons_append]
  exact ⟨skipWs_cons_not _ _ hws, by simp [hne1], by simp [hne2]⟩

lemma intSign_natAbs_neg (i : Int) (h : i < 0) : intSign true i.natAbs = i := by
  unfold intSign
  rw [if_pos rfl]
  omega

lemma intSign_natAbs_nonneg (i : Int) (h : ¬ i < 0) : intSign false i.natAbs = i := by
  unfold intSign
  rw [if_neg (by simp)]
  omega

lemma ws_pre_ok (ind : Nat) : ∀ c ∈ ('\n' :: List.replicate ind ' '), isWs c = true := by
  intro c hc
  rcases List.mem_cons.mp hc with rfl | hc
  · rfl
  · rw [List.eq_of_mem_replicate hc]; rfl

lemma parse_render_aux : ∀ fuel : Nat,
    (∀ j ind rest, sizeJ j ≤ fuel → wfJ j = true → numDelim rest = true →
      parseJ fuel (renderJ j ind ++ rest) = some (j, rest)) ∧
    (∀ pre x xs ind pad rest, (∀ c ∈ pre, isWs c = true) →
      sizeL (x :: xs) ≤ fuel → wfJ x = true → wfL xs = true →
      parseItems fuel (pre ++ (renderJ x ind ++ (renderElems xs ind ++
        ('\n' :: List.replicate pad ' ' ++ ']' :: rest)))) = some (x :: xs, rest)) ∧
    (∀ pre key v kvs ind pad rest, (∀ c ∈ pre, isWs c = true) →
      sizeM ((key, v) :: kvs) ≤ fuel → key.data.all safeChar = true →
      wfJ v = true → wfM kvs = true →
      parseMembers fuel (pre ++ (renderMember (key, v) ind ++ (renderMembers kvs ind ++
        ('\n' :: List.replicate pad ' ' ++ '\x7d' :: rest)))) = some ((key, v) :: kvs, rest)) := by
  intro fuel
  induction fuel with
  | zero =>
    refine ⟨fun j _ _ h _ _ => absurd h (by have := sizeJ_pos j; omega),
            fun _ x _ _ _ _ _ h _ _ =>
              absurd h (by have := sizeJ_pos x; simp only [sizeL]; omega),
            fun _ _ v _ _ _ _ _ h _ _ _ =>
              absurd h (by have := sizeJ_pos v; simp only [sizeM]; omega)⟩
  | succ fuel ih =>
    obtain ⟨ihP, ihQ, ihR⟩ := ih
    refine ⟨?_, ?_, ?_⟩
    · -- P: whole values
      intro j ind rest hsz hwf hdl
      cases j with
      | null =>
        rw [renderJ, parseJ]
        simp only [List.cons_append, List.nil_append]
        rw [skipWs_cons_not _ _ (by decide)]
        simp [stripPre]
      | bool b =>
        cases b with
        | true =>
          rw [renderJ, parseJ]
          simp only [List.cons_append, List.nil_append]
          rw [skipWs_cons_not _ _ (by decide)]
          simp [stripPre]
        | false =>
          rw [renderJ, parseJ]
          simp only [List.cons_append, List.nil_append]
          rw [skipWs_cons_not _ _ (by decide)]
          simp [stripPre]
      | int i =>
        rw [renderJ]
        unfold intToChars
        by_cases hi : i < 0
        · rw [if_pos hi, parseJ]
          simp only [List.cons_append]
          rw [skipWs_cons_not _ _ (by decide)]
          simp +decide only [ite_true, ite_false]
          rw [parseNumber_int_chars _ _ _ hdl, intSign_natAbs_neg i hi]
        · rw [if_neg hi, parseJ]
          obtain ⟨d, t, hdt, hd⟩ := natToChars_head i.natAbs
          obtain ⟨hw, hrb, hrc, hn, ht', hf, hq, hlb, hob, hmi, hdot, hcm, hcl⟩ :=
            digit_head_facts d hd
          rw [hdt, List.cons_append, skipWs_cons_not _ _ hw]
          simp only [hn, ht', hf, hq, hlb, hob, hmi, hd, if_false, if_true, reduceIte]
          rw [← List.cons_append, ← hdt, parseNumber_int_chars _ _ _ hdl,
            intSign_natAbs_nonneg i hi]
      | float m s =>
        have hs : 1 ≤ s := by simpa [wfJ] using hwf
        rw [renderJ]
        unfold floatChars
        have hfp : m.natAbs % 10 ^ s < 10 ^ s := Nat.mod_lt _ (Nat.pos_pow_of_pos s (by norm_num))
        have hrec : (m.natAbs / 10 ^ s) * 10 ^ s + m.natAbs % 10 ^ s = m.natAbs := by
          rw [Nat.mul_comm]
          exact Nat.div_add_mod m.natAbs (10 ^ s)
        by_cases hm : m < 0
        · rw [if_pos hm, parseJ]
          simp only [List.cons_append, List.nil_append, List.append_assoc]
          rw [skipWs_cons_not _ _ (by decide)]
          simp +decide only [ite_true, ite_false]
          rw [parseNumber_float_chars _ _ _ _ _ hfp hs hdl, hrec, intSign_natAbs_neg m hm]
        · rw [if_neg hm, parseJ]
          obtain ⟨d, t, hdt, hd⟩ := natToChars_head (m.natAbs / 10 ^ s)
          obtain ⟨hw, hrb, hrc, hn, ht', hf, hq, hlb, hob, hmi, hdot, hcm, hcl⟩ :=
            digit_head_facts d hd
          simp only [List.nil_append, List.append_assoc, hdt, List.cons_append]
          rw [skipWs_cons_not _ _ hw]
          simp only [hn, ht', hf, hq, hlb, hob, hmi, hd, if_false, if_true, reduceIte]
          rw [← List.cons_append, ← hdt, parseNumber_float_chars _ _ _ _ _ hfp hs hdl,
            hrec, intSign_natAbs_nonneg m hm]
      | str s =>
        rw [renderJ, parseJ]
        simp only [List.cons_append, List.append_assoc, List.nil_append]
        rw [skipWs_cons_not _ _ (by decide)]
        simp +decide only [ite_true, ite_false]
        rw [parseStr_escape s.data rest (by simpa [wfJ, List.all_eq_true] using hwf)]
      | arr xs =>
        cases xs with
        | nil =>
          rw [renderJ, parseJ]
          simp only [List.cons_append, List.nil_append]
          rw [skipWs_cons_not _ _ (by decide)]
          simp +decide only [ite_true, ite_false]
          rw [skipWs_cons_not _ _ (by decide)]
          simp
        | cons x t =>
          rw [renderJ, parseJ]
          simp only [List.cons_append, List.append_assoc, List.nil_append]
          rw [skipWs_cons_not _ _ (by decide)]
          simp +decide only [ite_true, ite_false]
          rw [skipWs_cons_ws _ _ (by decide),
            skipWs_append_all _ _ (fun c hc => by rw [List.eq_of_mem_replicate hc]; rfl)]
          have hfacts := renderJ_append_facts x (ind + 4)
            (renderElems t (ind + 4) ++ '\n' :: (List.replicate ind ' ' ++ ']' :: rest))
          rw [hfacts.1]
          rw [if_neg hfacts.2.1]
          have hsz' : sizeL (x :: t) ≤ fuel := by
            have : sizeJ (Json.arr (x :: t)) = 1 + sizeL (x :: t) := by simp [sizeJ]
            omega
          have hwf' : wfJ x = true ∧ wfL t = true := by
            have : wfJ (Json.arr (x :: t)) = (wfJ x && wfL t) := by simp [wfJ, wfL]
            rw [this] at hwf
            simpa using hwf
          have hq := ihQ [] x t (ind + 4) ind rest (by simp) hsz' hwf'.1 hwf'.2
          simp only [List.nil_append, List.cons_append, List.append_assoc] at hq
          rw [hq]
      | obj kvs =>
        cases kvs with
        | nil =>
          rw [renderJ, parseJ]
          simp only [List.cons_append, List.nil_append]
          rw [skipWs_cons_not _ _ (by decide)]
          simp +decide only [ite_true, ite_false]
          rw [skipWs_cons_not _ _ (by decide)]
          simp
        | cons kv t =>
          obtain ⟨key, v⟩ := kv
          rw [renderJ, parseJ]
          simp only [List.cons_append, List.append_assoc, List.nil_append]
          rw [skipWs_cons_not _ _ (by decide)]
          simp +decide only [ite_true, ite_false]
          rw [skipWs_cons_ws _ _ (by decide),
            skipWs_append_all _ _ (fun c hc => by rw [List.eq_of_mem_replicate hc]; rfl)]
          have hsz' : sizeM ((key, v) :: t) ≤ fuel := by
            have : sizeJ (Json.obj ((key, v) :: t)) = 1 + sizeM ((key, v) :: t) := by
              simp [sizeJ]
            omega
          have hwf' : key.data.all safeChar = true ∧ wfJ v = true ∧ wfM t = true := by
            have heq : wfJ (Json.obj ((key, v) :: t)) =
                (key.data.all safeChar && wfJ v && wfM t) := by simp [wfJ, wfM]
            rw [heq] at hwf
            simp only [Bool.and_eq_true] at hwf
            exact ⟨hwf.1.1, hwf.1.2, hwf.2⟩
          have hr := ihR [] key v t (ind + 4) ind rest (by simp) hsz' hwf'.1 hwf'.2.1 hwf'.2.2
          simp only [List.nil_append, List.cons_append, List.append_assoc, renderMember] at hr ⊢
          rw [skipWs_cons_not _ _ (by decide)]
          rw [if_neg (by simp)]
          rw [hr]
    · -- Q: array items
      intro pre x xs ind pad rest hpre hsz hwfx hwfxs
      rw [parseItems, parseJ_ws fuel pre _ hpre]
      have hszx : sizeJ x ≤ fuel := by simp only [sizeL] at hsz; omega
      cases xs with
      | nil =>
        have hnum := numDelim_relems [] ind pad rest
        simp only [renderElems, List.cons_append, List.append_assoc, List.nil_append] at hnum ⊢
        rw [ihP x ind _ hszx hwfx hnum]
        dsimp only
        rw [skipWs_cons_ws _ _ (by decide),
          skipWs_append_all _ _ (fun c hc => by rw [List.eq_of_mem_replicate hc]; rfl),
          skipWs_cons_not _ _ (by decide)]
        simp
      | cons y ys =>
        have hnum := numDelim_relems (y :: ys) ind pad rest
        simp only [renderElems, List.cons_append, List.append_assoc, List.nil_append] at hnum ⊢
        rw [ihP x ind _ hszx hwfx hnum]
        dsimp only
        rw [skipWs_cons_not _ _ (by decide)]
        simp +decide only [List.head?_cons, List.tail_cons, ite_true, ite_false]
        have hszy : sizeL (y :: ys) ≤ fuel := by
          simp only [sizeL] at hsz ⊢
          omega
        have hwfy : wfJ y = true ∧ wfL ys = true := by
          have heq : wfL (y :: ys) = (wfJ y && wfL ys) := by simp [wfL]
          rw [heq] at hwfxs
          simpa using hwfxs
        have hq := ihQ ('\n' :: List.replicate ind ' ') y ys ind pad rest
          (ws_pre_ok ind) hszy hwfy.1 hwfy.2
        simp only [List.cons_append, List.append_assoc, List.nil_append] at hq
        rw [hq]
    · -- R: object members
      intro pre key v kvs ind pad rest hpre hsz hkey hwfv hwfkvs
      rw [parseMembers]
      simp only [renderMember, List.cons_append, List.append_assoc, List.nil_append] at hpre ⊢
      rw [skipWs_append_all _ _ hpre, skipWs_cons_not _ _ (by decide)]
      simp +decide only [ite_true, ite_false]
      rw [parseStr_escape key.data _ (by simpa [List.all_eq_true] using hkey)]
      dsimp only
      rw [skipWs_cons_not _ _ (by decide)]
      simp +decide only [List.head?_cons, List.tail_cons, ite_true, ite_false]
      have hszv : sizeJ v ≤ fuel := by simp only [sizeM] at hsz; omega
      rw [show (' ' :: (renderJ v ind ++ (renderMembers kvs ind ++
            ('\n' :: (List.replicate pad ' ' ++ '\x7d' :: rest))))) =
          [' '] ++ (renderJ v ind ++ (renderMembers kvs ind ++
            ('\n' :: (List.replicate pad ' ' ++ '\x7d' :: rest)))) from rfl,
        parseJ_ws fuel [' '] _ (by intro c hc; simp at hc; subst hc; rfl)]
      cases kvs with
      | nil =>
        have hnum := numDelim_rmembers [] ind pad rest
        simp only [renderMembers, List.cons_append, List.append_assoc, List.nil_append]
          at hnum ⊢
        rw [ihP v ind _ hszv hwfv hnum]
        dsimp only
        rw [skipWs_cons_ws _ _ (by decide),
          skipWs_append_all _ _ (fun c hc => by rw [List.eq_of_mem_replicate hc]; rfl),
          skipWs_cons_not _ _ (by decide)]
        simp
      | cons kv2 t =>
        obtain ⟨key2, v2⟩ := kv2
        have hnum := numDelim_rmembers ((key2, v2) :: t) ind pad rest
        simp only [renderMembers, renderMember, List.cons_append, List.append_assoc,
          List.nil_append] at hnum ⊢
        rw [ihP v ind _ hszv hwfv hnum]
        dsimp only
        rw [skipWs_cons_not _ _ (by decide)]
        simp +decide only [List.head?_cons, List.tail_cons, ite_true, ite_false]
        have hszt : sizeM ((key2, v2) :: t) ≤ fuel := by
          simp only [sizeM] at hsz ⊢
          omega
        have hwft : key2.data.all safeChar = true ∧ wfJ v2 = true ∧ wfM t = true := by
          have heq : wfM ((key2, v2) :: t) = (key2.data.all safeChar && wfJ v2 && wfM t) := by
            simp [wfM]
          rw [heq] at hwfkvs
          simp only [Bool.and_eq_true] at hwfkvs
          exact ⟨hwfkvs.1.1, hwfkvs.1.2, hwfkvs.2⟩
        have hr := ihR ('\n' :: List.replicate ind ' ') key2 v2 t ind pad rest
          (ws_pre_ok ind) hszt hwft.1 hwft.2.1 hwft.2.2
        simp only [renderMember, List.cons_append, List.append_assoc, List.nil_append] at hr
        rw [hr]

-- The node count of a tree is below its rendered length (fuel accounting).

lemma render_length_aux : ∀ n : Nat,
    (∀ j : Json, sizeOf j ≤ n → ∀ ind, sizeJ j ≤ (renderJ j ind).length) ∧
    (∀ xs : List Json, sizeOf xs ≤ n → ∀ ind, sizeL xs ≤ (renderElems xs ind).length) ∧
    (∀ kvs : List (String × Json), sizeOf kvs ≤ n → ∀ ind,
      sizeM kvs ≤ (renderMembers kvs ind).length) := by
  intro n
  induction n using Nat.strong_induction_on with
  | _ n ih =>
    refine ⟨?_, ?_, ?_⟩
    · intro j hj ind
      cases j with
      | null => simp [sizeJ, renderJ]
      | bool b => cases b <;> simp [sizeJ, renderJ]
      | int i =>
        have h1 : 1 ≤ (intToChars i).length := by
          unfold intToChars
          by_cases hi : i < 0
          · simp [hi]
          · simp [hi]
            have := natToChars_ne_nil i.natAbs
            cases h : natToChars i.natAbs with
            | nil => exact absurd h this
            | cons c t => simp [h]
        simp only [sizeJ, renderJ]
        omega
      | float m s =>
        simp only [sizeJ, renderJ]
        unfold floatChars
        simp [List.length_append]
        omega
      | str s => simp [sizeJ, renderJ]
      | arr xs =>
        cases xs with
        | nil => simp [sizeJ, sizeL, renderJ]
        | cons x t =>
          have hx : sizeOf x < n := by simp at hj; omega
          have ht : sizeOf t < n := by simp at hj; omega
          have ihx := (ih (sizeOf x) hx).1 x le_rfl (ind + 4)
          have iht := (ih (sizeOf t) ht).2.1 t le_rfl (ind + 4)
          simp only [sizeJ, sizeL, renderJ]
          simp [List.length_append]
          omega
      | obj kvs =>
        cases kvs with
        | nil => simp [sizeJ, sizeM, renderJ]
        | cons kv t =>
          obtain ⟨key, v⟩ := kv
          have hv : sizeOf ((key, v) :: t) < n := by simp at hj ⊢; omega
          have iht := (ih (sizeOf ((key, v) :: t)) hv).2.2 ((key, v) :: t) le_rfl (ind + 4)
          simp only [sizeJ, renderJ]
          simp only [sizeM] at iht ⊢
          simp only [renderMembers] at iht
          simp [List.length_append] at iht ⊢
          omega
    · intro xs hxs ind
      cases xs with
      | nil => simp [sizeL, renderElems]
      | cons x t =>
        have hx : sizeOf x < n := by simp at hxs; omega
        have ht : sizeOf t < n := by simp at hxs; omega
        have ihx := (ih (sizeOf x) hx).1 x le_rfl ind
        have iht := (ih (sizeOf t) ht).2.1 t le_rfl ind
        simp only [sizeL, renderElems]
        simp [List.length_append]
        omega
    · intro kvs hkvs ind
      cases kvs with
      | nil => simp [sizeM, renderMembers]
      | cons kv t =>
        obtain ⟨key, v⟩ := kv
        have hv : sizeOf v < n := by simp at hkvs; omega
        have ht : sizeOf t < n := by simp at hkvs; omega
        have ihv := (ih (sizeOf v) hv).1 v le_rfl ind
        have iht := (ih (sizeOf t) ht).2.2 t le_rfl ind
        simp only [sizeM, renderMembers, renderMember]
        simp [List.length_append]
        omega

-- Composing the serializer with the parser.

lemma loads_dumps_of_wf (j : Json) (hwf : wfJ j = true) :
    jsonLoads (String.mk (renderJ j 0)) = some j := by
  unfold jsonLoads
  have hdata : (String.mk (renderJ j 0)).data = renderJ j 0 := rfl
  rw [hdata]
  have hlen := (render_length_aux (sizeOf j)).1 j le_rfl 0
  have hP := (parse_render_aux ((renderJ j 0).length + 1)).1 j 0 [] (by omega) hwf rfl
  rw [List.append_nil] at hP
  rw [hP]
  simp [skipWs]

lemma dumps_loads_value (v : Value) (h : wfJ (toJson v) = true) :
    jsonLoads (jsonDumps v) = some (toJson v) :=
  loads_dumps_of_wf (toJson v) h

-- A safe generated value maps to a well-formed JSON tree.

lemma toJson_wf_aux : ∀ n : Nat,
    (∀ v : Value, sizeOf v ≤ n → safeVal v = true → wfJ (toJson v) = true) ∧
    (∀ vs : List Value, sizeOf vs ≤ n → safeValL vs = true → wfL (toJsonList vs) = true) ∧
    (∀ kvs : List (String × Value), sizeOf kvs ≤ n → safeValM kvs = true →
      wfM (toJsonPairs kvs) = true) := by
  intro n
  induction n using Nat.strong_induction_on with
  | _ n ih =>
    refine ⟨?_, ?_, ?_⟩
    · intro v hv hs
      cases v with
      | null => simp [toJson, wfJ]
      | bool b => simp [toJson, wfJ]
      | int i => simp [toJson, wfJ]
      | float m =>
        by_cases h10 : m % 10 = 0 <;> simp [toJson, wfJ, h10]
      | str s => simpa [toJson, wfJ, safeVal] using hs
      | arr vs =>
        have hlt : sizeOf vs < n := by simp at hv; omega
        have := (ih (sizeOf vs) hlt).2.1 vs le_rfl (by simpa [safeVal] using hs)
        simpa [toJson, wfJ] using this
      | tup vs =>
        have hlt : sizeOf vs < n := by simp at hv; omega
        have := (ih (sizeOf vs) hlt).2.1 vs le_rfl (by simpa [safeVal] using hs)
        simpa [toJson, wfJ] using this
      | obj kvs =>
        have hlt : sizeOf kvs < n := by simp at hv; omega
        have := (ih (sizeOf kvs) hlt).2.2 kvs le_rfl (by simpa [safeVal] using hs)
        simpa [toJson, wfJ] using this
    · intro vs hvs hs
      cases vs with
      | nil => simp [toJsonList, wfL]
      | cons v t =>
        have hv : sizeOf v < n := by simp at hvs; omega
        have ht : sizeOf t < n := by simp at hvs; omega
        simp only [safeValL, Bool.and_eq_true] at hs
        have h1 := (ih (sizeOf v) hv).1 v le_rfl hs.1
        have h2 := (ih (sizeOf t) ht).2.1 t le_rfl hs.2
        simp [toJsonList, wfL, h1, h2]
    · intro kvs hkvs hs
      cases kvs with
      | nil => simp [toJsonPairs, wfM]
      | cons kv t =>
        obtain ⟨key, v⟩ := kv
        have hv : sizeOf v < n := by simp at hkvs; omega
        have ht : sizeOf t < n := by simp at hkvs; omega
        simp only [safeValM, Bool.and_eq_true] at hs
        have h1 := (ih (sizeOf v) hv).1 v le_rfl hs.1.2
        have h2 := (ih (sizeOf t) ht).2.2 t le_rfl hs.2
        simp [toJsonPairs, wfM, h1, h2, hs.1.1]

lemma toJson_wf (v : Value) (h : safeVal v = true) : wfJ (toJson v) = true :=
  (toJson_wf_aux (sizeOf v)).1 v le_rfl h

-- Every value the synthesizer produces is printable-ASCII safe.

lemma wordList_safe : ∀ w ∈ wordList, w.data.all safeChar = true := by decide

lemma fakeWord_safe (n : Nat) : (fakeWord n).data.all safeChar = true :=
  wordList_safe _ (List.get_mem _ _ _)

lemma letters_safe : ∀ c ∈ letters, safeChar c = true := by decide

lemma letterChar_safe (n : Nat) : safeChar (letterChar n) = true :=
  letters_safe _ (List.get_mem _ _ _)

lemma fakePystr_safe (a b n : Nat) : (fakePystr a b n).data.all safeChar = true := by
  unfold fakePystr
  rw [List.all_eq_true]
  intro c hc
  obtain ⟨i, _, rfl⟩ := List.mem_map.mp hc
  exact letterChar_safe _

lemma append_safe (a b : String) (ha : a.data.all safeChar = true)
    (hb : b.data.all safeChar = true) : (a ++ b).data.all safeChar = true := by
  rw [String.data_append, List.all_append, ha, hb]
  rfl

lemma fakeSentence_safe (n : Nat) : (fakeSentence n).data.all safeChar = true :=
  append_safe _ _ (fakeWord_safe n) (by decide)

lemma strTake_safe (s : String) (k : Nat) (h : s.data.all safeChar = true) :
    (strTake s k).data.all safeChar = true := by
  unfold strTake
  rw [List.all_eq_true] at h ⊢
  intro c hc
  exact h c (List.take_subset _ _ hc)

lemma fakeText_safe (m n : Nat) : (fakeText m n).data.all safeChar = true :=
  strTake_safe _ _ (append_safe _ _ (fakeWord_safe n) (by decide))

lemma choiceD_cases {α : Type} (dflt : α) (xs : List α) (n : Nat) :
    choiceD dflt xs n = dflt ∨ choiceD dflt xs n ∈ xs := by
  unfold choiceD
  cases h : xs[n % xs.length]? with
  | none => left; simp [List.getD, h]
  | some x =>
    right
    have hx : x ∈ xs := List.getElem?_mem h
    simpa [List.getD, h] using hx

lemma safeVal_null : safeVal Value.null = true := by simp [safeVal]

lemma choiceD_safe (dflt : Value) (xs : List Value) (n : Nat)
    (hd : safeVal dflt = true) (hxs : ∀ x ∈ xs, safeVal x = true) :
    safeVal (choiceD dflt xs n) = true := by
  rcases choiceD_cases dflt xs n with h | h
  · rw [h]; exact hd
  · exact hxs _ h

lemma safeValL_mem (vs : List Value) (h : safeValL vs = true) :
    ∀ v ∈ vs, safeVal v = true := by
  induction vs with
  | nil => simp
  | cons x t ih =>
    simp only [safeValL, Bool.and_eq_true] at h
    intro v hv
    rcases List.mem_cons.mp hv with rfl | hv
    · exact h.1
    · exact ih h.2 v hv

lemma upsert_safeValM (l : List (String × Value)) (key : String) (v : Value)
    (hl : safeValM l = true) (hk : key.data.all safeChar = true) (hv : safeVal v = true) :
    safeValM (upsert l key v) = true := by
  induction l with
  | nil => simp [upsert, safeValM, hk, hv]
  | cons p rest ih =>
    obtain ⟨k0, v0⟩ := p
    simp only [safeValM, Bool.and_eq_true] at hl
    by_cases h : k0 = key
    · simp only [upsert, if_pos h, safeValM, Bool.and_eq_true]
      exact ⟨⟨hl.1.1, hv⟩, hl.2⟩
    · simp only [upsert, if_neg h, safeValM, Bool.and_eq_true]
      exact ⟨⟨hl.1.1, hl.1.2⟩, ih hl.2⟩

lemma genAny_safe (g : Nat → Nat) (k : Nat) : safeVal (genAny g k).1 = true := by
  unfold genAny
  refine choiceD_safe _ _ _ safeVal_null ?_
  intro x hx
  simp only [List.mem_cons, List.not_mem_nil, or_false] at hx
  rcases hx with rfl | rfl | rfl | rfl
  · simpa [safeVal] using fakeWord_safe (g k)
  · simp [safeVal]
  · simp [safeVal]
  · simpa [safeVal] using fakeSentence_safe (g (k + 3))

lemma gen_safe_aux : ∀ n : Nat,
    (∀ t : FieldType, sizeOf t ≤ n → safeTy t = true → ∀ m g k,
      safeVal (genValue t m g k).1 = true) ∧
    (∀ ts : List FieldType, sizeOf ts ≤ n → safeTyL ts = true → ∀ m g k,
      safeVal (genUnionWrapped ts m g k).1 = true) ∧
    (∀ ts : List FieldType, sizeOf ts ≤ n → safeTyL ts = true → ∀ m g k,
      safeValL (genTupleVals ts m g k).1 = true) ∧
    (∀ fs : List FieldDecl, sizeOf fs ≤ n → safeFields fs = true → ∀ g k,
      safeValM (genFields fs g k).1 = true) ∧
    (∀ pm : PyModel, sizeOf pm ≤ n → safeModel pm = true → ∀ g k,
      safeVal (genInstance pm g k).1 = true) := by
  intro n
  induction n using Nat.strong_induction_on with
  | _ n ih =>
    refine ⟨?_, ?_, ?_, ?_, ?_⟩
    · intro t hsz hsafe m g k
      cases t with
      | union args =>
        have hlt : sizeOf args < n := by simp at hsz; omega
        have hsl : safeTyL args = true := by simpa [safeTy] using hsafe
        by_cases hne : args.any isNoneT = true
        · simp only [genValue, hne, if_pos]
          refine choiceD_safe _ _ _ safeVal_null ?_
          intro x hx
          simp only [List.mem_cons, List.not_mem_nil, or_false] at hx
          rcases hx with rfl | rfl
          · exact safeVal_null
          · exact (ih (sizeOf args) hlt).2.1 args le_rfl hsl m g k
        · simp only [genValue, hne]
          simp [safeVal_null]
      | modelTy pm =>
        cases pm with
        | rootM rt =>
          have hlt : sizeOf rt < n := by simp at hsz; omega
          have hst : safeTy rt = true := by simpa [safeTy, safeModel] using hsafe
          simp only [genValue]
          exact (ih (sizeOf rt) hlt).1 rt le_rfl hst m g k
        | record fields =>
          have hlt : sizeOf fields < n := by simp at hsz; omega
          have hsf : safeFields fields = true := by simpa [safeTy, safeModel] using hsafe
          simp only [genValue, safeVal]
          exact (ih (sizeOf fields) hlt).2.2.2.1 fields le_rfl hsf g k
      | enumTy vals =>
        have hsv : safeValL vals = true := by simpa [safeTy] using hsafe
        simp only [genValue]
        exact choiceD_safe _ _ _ safeVal_null (safeValL_mem vals hsv)
      | listTy elem =>
        have hlt : sizeOf elem < n := by simp at hsz; omega
        have hse : safeTy elem = true := by simpa [safeTy] using hsafe
        have h1 := (ih (sizeOf elem) hlt).1 elem le_rfl hse
        simp only [genValue, safeVal, safeValL, Bool.and_eq_true]
        exact ⟨h1 m g k, h1 m g _, h1 m g _, trivial⟩
      | listNoArg =>
        simp only [genValue, safeVal, safeValL, Bool.and_eq_true]
        exact ⟨genAny_safe g k, genAny_safe g _, genAny_safe g _, trivial⟩
      | dictTy kt vt =>
        have hlt : sizeOf vt < n := by simp at hsz; omega
        have hsv : safeTy vt = true := by
          simp only [safeTy, Bool.and_eq_true] at hsafe
          exact hsafe.2
        have h1 := (ih (sizeOf vt) hlt).1 vt le_rfl hsv
        simp only [genValue, safeVal]
        refine upsert_safeValM _ _ _ ?_ (fakeWord_safe _) (h1 m g _)
        exact upsert_safeValM _ _ _ (by simp [safeValM]) (fakeWord_safe _) (h1 m g _)
      | dictNoArg =>
        simp only [genValue, safeVal]
        refine upsert_safeValM _ _ _ ?_ (fakeWord_safe _) (genAny_safe g _)
        exact upsert_safeValM _ _ _ (by simp [safeValM]) (fakeWord_safe _) (genAny_safe g _)
      | tupleTy args =>
        have hlt : sizeOf args < n := by simp at hsz; omega
        have hsl : safeTyL args = true := by simpa [safeTy] using hsafe
        simp only [genValue, safeVal]
        exact (ih (sizeOf args) hlt).2.2.1 args le_rfl hsl m g k
      | boolT => simp [genValue, safeVal]
      | intT => simp [genValue, safeVal]
      | floatT => simp [genValue, safeVal]
      | strT =>
        by_cases heq : getI m "min_length" 5 = getI m "max_length" 15
        · simp only [genValue]
          rw [if_pos heq]
          simp only [safeVal]
          exact fakePystr_safe _ _ _
        · simp only [genValue]
          rw [if_neg heq]
          simp only [safeVal]
          exact strTake_safe _ _ (fakeText_safe _ _)
      | listBare =>
        simp only [genValue, safeVal, safeValL, Bool.and_eq_true]
        refine ⟨?_, ?_, ?_, trivial⟩ <;> simpa [safeVal] using fakeWord_safe _
      | anyT =>
        simp only [genValue]
        exact genAny_safe g k
      | noneT => simp [genValue, safeVal]
      | other => simp [genValue, safeVal]
    · intro ts hsz hsafe m g k
      cases ts with
      | nil => simp [genUnionWrapped, safeVal]
      | cons t rest =>
        have hlt1 : sizeOf t < n := by simp at hsz; omega
        have hlt2 : sizeOf rest < n := by simp at hsz; omega
        simp only [safeTyL, Bool.and_eq_true] at hsafe
        by_cases hn : isNoneT t = true
        · simp only [genUnionWrapped, hn, if_pos]
          exact (ih (sizeOf rest) hlt2).2.1 rest le_rfl hsafe.2 m g k
        · simp only [genUnionWrapped, hn]
          simp only [Bool.false_eq_true, if_false]
          exact (ih (sizeOf t) hlt1).1 t le_rfl hsafe.1 m g k
    · intro ts hsz hsafe m g k
      cases ts with
      | nil => simp [genTupleVals, safeValL]
      | cons t rest =>
        have hlt1 : sizeOf t < n := by simp at hsz; omega
        have hlt2 : sizeOf rest < n := by simp at hsz; omega
        simp only [safeTyL, Bool.and_eq_true] at hsafe
        simp only [genTupleVals, safeValL, Bool.and_eq_true]
        exact ⟨(ih (sizeOf t) hlt1).1 t le_rfl hsafe.1 m g k,
          (ih (sizeOf rest) hlt2).2.2.1 rest le_rfl hsafe.2 m g _⟩
    · intro fs hsz hsafe g k
      cases fs with
      | nil => simp [genFields, safeValM]
      | cons f rest =>
        obtain ⟨name, ty, annos⟩ := f
        have hlt1 : sizeOf ty < n := by simp at hsz; omega
        have hlt2 : sizeOf rest < n := by simp at hsz; omega
        simp only [safeFields, Bool.and_eq_true] at hsafe
        simp only [genFields, safeValM, Bool.and_eq_true]
        exact ⟨⟨hsafe.1.1, (ih (sizeOf ty) hlt1).1 ty le_rfl hsafe.1.2 _ g k⟩,
          (ih (sizeOf rest) hlt2).2.2.2.1 rest le_rfl hsafe.2 g _⟩
    · intro pm hsz hsafe g k
      cases pm with
      | rootM rt =>
        have hlt : sizeOf rt < n := by simp at hsz; omega
        have hst : safeTy rt = true := by simpa [safeModel] using hsafe
        simp only [genInstance]
        exact (ih (sizeOf rt) hlt).1 rt le_rfl hst [] g k
      | record fields =>
        have hlt : sizeOf fields < n := by simp at hsz; omega
        have hsf : safeFields fields = true := by simpa [safeModel] using hsafe
        simp only [genInstance, safeVal]
        exact (ih (sizeOf fields) hlt).2.2.2.1 fields le_rfl hsf g k

lemma genInstance_safe (pm : PyModel) (h : safeModel pm = true) (g : Nat → Nat) (k : Nat) :
    safeVal (genInstance pm g k).1 = true :=
  (gen_safe_aux (sizeOf pm)).2.2.2.2 pm le_rfl h g k

/-- C3: for every model whose baked-in text (field names, enumeration
stored values) is printable ASCII — true of every schema in this
repository — and every outcome of the randomness source, serializing the
synthesized value with `json.dumps(_, indent=4)` and parsing the text
back yields a tree structurally identical to the original: equal to its
`toJson` image, which preserves the order of tuples, sequences and
records (tuples re-read as sequences, as Python does) and the keys of
mappings. -/
theorem c3_serialization_roundtrip (model : PyModel) (g : Nat → Nat) (k : Nat)
    (h : safeModel model = true) :
    jsonLoads (generate_dummy_data model g k) = some (toJson (genInstance model g k).1) := by
  unfold generate_dummy_data
  exact dumps_loads_value _ (toJson_wf _ (genInstance_safe model h g k))

/-- Witness for C3 at a concrete one-integer-field model and the
all-zeros oracle. -/
theorem c3_witness :
    safeModel (PyModel.record [FieldDecl.mk "a" FieldType.intT []]) = true ∧
    jsonLoads (generate_dummy_data (PyModel.record [FieldDecl.mk "a" FieldType.intT []])
        (fun _ => 0) 0) =
      some (toJson (genInstance (PyModel.record [FieldDecl.mk "a" FieldType.intT []])
        (fun _ => 0) 0).1) :=
  ⟨by simp +decide [safeModel, safeFields, safeTy],
   c3_serialization_roundtrip _ (fun _ => 0) 0
     (by simp +decide [safeModel, safeFields, safeTy])⟩
